import Mathlib

/-
Verification development for the BM25 evaluation pipeline
(src/clean_text_and_evaluate_BM25.py).

The pipeline scores validation passages with BM25, ranks them per query
(groupby qid, rank descending, method "first"), and computes mean
precision at 100 and mean NDCG.  The functions mean_precision, mean_ndcg,
bm25_feature and the rank assignment are embedded below; Python runtime
errors (ZeroDivisionError, KeyError) are modelled by Option, with none
standing for a raised exception.  Floating point arithmetic is modelled
by the real numbers; dataframe row labels are modelled by row positions
(the sampled dataframe has unique labels, so this is faithful).
-/

namespace BM25Eval

/-- A row of the validation dataframe as used by the metric functions:
columns qid, relevancy and rank (the bm25 score column is only consumed
by the ranking step, which is modelled separately). -/
structure Row where
  qid : ℕ
  relevancy : ℕ
  rank : ℕ
deriving DecidableEq, Repr

/-- The candidate rows of one query: df[df["qid"]==qid] in row order. -/
def qGroup (df : List Row) (q : ℕ) : List Row :=
  df.filter (fun r => r.qid == q)

/-- The loop body of mean_precision.  For each qid the source takes
df[df["qid"]==qid]["rank"].head(100).index, counts the rows with
relevancy 1 among those indexes, and divides by the number of indexes
taken.  head(100) takes the first min(100, group size) rows of the group
in dataframe row order.  A qid whose candidate set is empty makes the
division overlap_count/len(top100) raise ZeroDivisionError, modelled by
none. -/
def precLoop (df : List Row) : List ℕ → Option (List ℚ × List ℕ)
  | [] => some ([], [])
  | q :: qs =>
      let top := (qGroup df q).take 100
      if top.length = 0 then
        none
      else
        match precLoop df qs with
        | none => none
        | some pr =>
            some ((((top.filter (fun r => r.relevancy == 1)).length : ℚ) /
                    (top.length : ℚ)) :: pr.1,
                  top.length :: pr.2)

/-- mean_precision(df, validation_qid) from the source: returns the mean
of the per-qid precisions together with the list of retrieved counts.
np.mean of the empty list (empty qid list) would be NaN; no claim
touches that case and it is modelled by 0/0 = 0. -/
def mean_precision (df : List Row) (qids : List ℕ) : Option (ℚ × List ℕ) :=
  (precLoop df qids).map (fun pr => (pr.1.sum / (pr.1.length : ℚ), pr.2))

/-- Failing input for the precision claim: one query (qid 1) with 101
candidate rows.  Rows 0..99 are irrelevant and carry ranks 2..101; row
100 is the single relevant row and carries rank 1 (the top rank). -/
def dfC1 : List Row :=
  (List.range 101).map (fun k => if k = 100 then ⟨1, 1, 1⟩ else ⟨1, 0, k + 2⟩)

/-- C1.  mean_precision does not take the 100 top-ranked rows: it takes
the first 100 rows of the query in dataframe row order.  On dfC1 the
only relevant row has rank 1 (so it is among the 100 top-ranked rows and
the claimed precision is 1/100), but it sits at row position 100, so
head(100) misses it and the code returns precision 0. -/
theorem claimC1_head_is_not_top_ranked :
    mean_precision dfC1 [1] = some (0, [100]) ∧
    (dfC1.filter (fun r => r.relevancy == 1)).map (fun r => r.rank) = [1] ∧
    (0 : ℚ) ≠ 1 / 100 := by
  have htop : (qGroup dfC1 1).take 100 =
      (List.range 100).map (fun k => (⟨1, 0, k + 2⟩ : Row)) := by decide
  have hfil : (((List.range 100).map
      (fun k => (⟨1, 0, k + 2⟩ : Row))).filter (fun r => r.relevancy == 1)) = [] := by
    decide
  have hlen : (((List.range 100).map
      (fun k => (⟨1, 0, k + 2⟩ : Row)))).length = 100 := by simp
  refine ⟨?_, by decide, by norm_num⟩
  simp only [mean_precision, precLoop, htop, hfil, hlen]
  norm_num

/-- C8 counterexample input: the dataframe has only qid 1 rows, and
mean_precision is asked about qid 2, whose candidate set is empty. -/
def dfC8 : List Row := [⟨1, 1, 1⟩]

/-- C8.  A qid with an empty candidate set is not skipped: the division
overlap_count/len(top100) has a zero denominator and the call fails
(ZeroDivisionError, modelled by none) instead of excluding the query. -/
theorem claimC8_empty_group_raises :
    mean_precision dfC8 [2] = none := by
  decide

/-- C8 amended: whenever any requested qid has an empty candidate set,
mean_precision raises (returns none) - it never skips the query. -/
theorem claimC8_amended_raise_on_any_empty_group
    (df : List Row) (qids : List ℕ) (q : ℕ)
    (hq : q ∈ qids) (he : qGroup df q = []) :
    mean_precision df qids = none := by
  induction qids with
  | nil => cases hq
  | cons p ps ih =>
      rcases List.mem_cons.mp hq with h | h
      · subst h
        simp [mean_precision, precLoop, he]
      · have hrec := ih h
        unfold mean_precision at hrec ⊢
        unfold precLoop
        cases hcl : precLoop df ps with
        | none => simp [hcl]
        | some pr =>
            rw [hcl] at hrec
            simp at hrec

/-- Witness dataframe for the amended C8 theorem. -/
def dfC8w : List Row := [⟨1, 0, 1⟩]

/-- Witness for the amended C8 theorem: qid 2 appears in the qid list,
its candidate set in dfC8w is empty, and the whole call returns none
even though qid 1 has a nonempty candidate set. -/
theorem claimC8_amended_witness :
    (2 ∈ [1, 2]) ∧ qGroup dfC8w 2 = [] ∧ mean_precision dfC8w [1, 2] = none :=
  ⟨by decide, by decide,
    claimC8_amended_raise_on_any_empty_group dfC8w [1, 2] 2 (by decide) (by decide)⟩

/-- One DCG addend of mean_ndcg: the source executes d += 1/np.log2(i+2)
where i = row["rank"] is the assigned 1-indexed rank. -/
noncomputable def dcgTerm (rank : ℕ) : ℝ :=
  1 / Real.logb 2 ((rank : ℝ) + 2)

/-- One IDCG entry of mean_ndcg: the source executes
sum([1/np.log2(i + 1) for i in range(1, element + 1)]) for element = K. -/
noncomputable def idcgAt (K : ℕ) : ℝ :=
  ∑ i ∈ Finset.range K, 1 / Real.logb 2 ((i : ℝ) + 2)

/-- The mutable state of the relevant-row loop in mean_ndcg:
done_qid, the running DCG d, the IDCG index, the iteration counter and
the accumulated NDCG list (the DCG list is dead and omitted). -/
structure NdcgState where
  done_qid : List ℕ
  d : ℝ
  index : ℕ
  counter : ℕ
  NDCG : List ℝ

/-- One iteration of the relevant-row loop of mean_ndcg, for a row with
relevancy 1.  When the row's qid is not in done_qid and the counter is
positive, the previous running DCG is flushed: d/IDCG[index] is appended
to NDCG, the index advances and d restarts from this row's term;
otherwise the row's term is accumulated into d. -/
noncomputable def ndcgStep (IDCG : List ℝ) (s : NdcgState) (row : Row) : NdcgState :=
  if row.qid ∉ s.done_qid ∧ 0 < s.counter then
    { done_qid := s.done_qid ++ [row.qid]
      d := dcgTerm row.rank
      index := s.index + 1
      counter := s.counter + 1
      NDCG := s.NDCG ++ [s.d / IDCG.getD s.index 0] }
  else
    { s with d := s.d + dcgTerm row.rank, counter := s.counter + 1 }

/-- Stable insertion by qid, used to model df.sort_values(by="qid"). -/
def insertRow (r : Row) : List Row → List Row
  | [] => [r]
  | x :: xs => if r.qid ≤ x.qid then r :: x :: xs else x :: insertRow r xs

/-- df.sort_values(by="qid"): the embedding fixes the stable order
(pandas' default quicksort does not guarantee a tie order; all concrete
inputs below are insensitive to the order within one qid). -/
def sortByQid (df : List Row) : List Row :=
  df.foldr insertRow []

/-- np.mean of a list: sum divided by length.  np.mean([]) is NaN in
numpy; it is modelled by 0/0 = 0 and no claim depends on that case. -/
noncomputable def npMean (xs : List ℝ) : ℝ :=
  xs.sum / (xs.length : ℝ)

/-- mean_ndcg(df, retrieved) from the source: sort by qid, build the
IDCG list from the retrieved counts (in qid-list order), iterate over
the rows with relevancy 1 with the stateful loop, and return the mean
of the accumulated NDCG list.  Nothing is flushed after the loop. -/
noncomputable def mean_ndcg (df : List Row) (retrieved : List ℕ) : ℝ :=
  npMean (((sortByQid df).filter (fun r => r.relevancy == 1)).foldl
    (ndcgStep (retrieved.map idcgAt)) ⟨[], 0, 0, 0, []⟩).NDCG

/-- Failing input for the NDCG formula claim: two queries, each with a
single retrieved (and relevant) row at rank 1, retrieved counts [1, 1]. -/
def dfC2 : List Row := [⟨1, 1, 1⟩, ⟨2, 1, 1⟩]

/-- 1 < log2 3, so 1/log2 3 is strictly between 0 and 1. -/
theorem one_lt_logb_two_three : 1 < Real.logb 2 3 := by
  have h2 : (1 : ℝ) < 2 := by norm_num
  calc (1 : ℝ) = Real.logb 2 2 := (Real.logb_self_eq_one h2).symm
    _ < Real.logb 2 3 := Real.logb_lt_logb h2 (by norm_num) (by norm_num)

/-- C2.  For dfC2 the claimed per-query NDCG is DCG/IDCG =
(1/log2(1+1))/(1/log2 2) = 1 for each query, hence every mean the claim
can produce equals 1.  The code adds 1/log2(rank+2) per relevant row,
so it returns 1/log2 3 < 1. -/
theorem claimC2_dcg_discount_is_off_by_one :
    mean_ndcg dfC2 [1, 1] = 1 / Real.logb 2 3 ∧
    1 / Real.logb 2 3 ≠ 1 := by
  constructor
  · simp [mean_ndcg, dfC2, sortByQid, insertRow, ndcgStep, dcgTerm, idcgAt, npMean,
      Real.logb_self_eq_one (show (1:ℝ) < 2 by norm_num)]
    norm_num
  · have h := one_lt_logb_two_three
    have hpos : 0 < Real.logb 2 3 := lt_trans one_pos h
    exact ne_of_lt ((div_lt_one hpos).mpr h)

/-- Failing input for the perfect-ranking claim: queries 3 and 4, each
with one candidate which is relevant and ranked 1 (a perfect ranking of
every query). -/
def dfC6 : List Row := [⟨3, 1, 1⟩, ⟨4, 1, 1⟩]

/-- C6.  Every query of dfC6 has all its relevant documents ranked
first, so the claim says each per-query NDCG is exactly 1.0 and hence so
is the returned mean.  The code returns 1/log2 3 < 1. -/
theorem claimC6_perfect_ranking_ndcg_not_one :
    (∀ r ∈ dfC6, r.relevancy = 1 ∧ r.rank = 1) ∧
    mean_ndcg dfC6 [1, 1] = 1 / Real.logb 2 3 ∧
    1 / Real.logb 2 3 ≠ 1 := by
  refine ⟨by decide, ?_, ?_⟩
  · simp [mean_ndcg, dfC6, sortByQid, insertRow, ndcgStep, dcgTerm, idcgAt, npMean,
      Real.logb_self_eq_one (show (1:ℝ) < 2 by norm_num)]
    norm_num
  · have h := one_lt_logb_two_three
    have hpos : 0 < Real.logb 2 3 := lt_trans one_pos h
    exact ne_of_lt ((div_lt_one hpos).mpr h)

/-- Counterexample input for the mean-of-per-query-NDCG claim: queries 7
and 8, each with one retrieved (and relevant) row at rank 1. -/
def dfC5x : List Row := [⟨7, 1, 1⟩, ⟨8, 1, 1⟩]

/-- C5 counterexample.  Both queries of dfC5x have per-query NDCG 1
under the claim's formulas, so a mean of per-query NDCG values over any
nonempty subset of them is 1 (and an empty mean contributes no value,
modelled 0).  The code returns 1/log2 3, which is neither. -/
theorem claimC5_result_not_a_mean_of_per_query_ndcg :
    mean_ndcg dfC5x [1, 1] = 1 / Real.logb 2 3 ∧
    1 / Real.logb 2 3 ≠ 1 ∧ 1 / Real.logb 2 3 ≠ 0 := by
  have h := one_lt_logb_two_three
  have hpos : 0 < Real.logb 2 3 := lt_trans one_pos h
  refine ⟨?_, ne_of_lt ((div_lt_one hpos).mpr h), ne_of_gt (by positivity)⟩
  simp [mean_ndcg, dfC5x, sortByQid, insertRow, ndcgStep, dcgTerm, idcgAt, npMean,
    Real.logb_self_eq_one (show (1:ℝ) < 2 by norm_num)]
  norm_num

/-!  The amended C5 claim characterises mean_ndcg in closed form on
dataframes that are sorted by qid.  The input is described as a list of
groups, one per qid in strictly increasing qid order; each group carries
the (rank, relevancy) pairs of its rows.  -/

/-- The rows of one group: qid q with a list of (rank, relevancy) pairs. -/
def rowsOfGroup (g : ℕ × List (ℕ × ℕ)) : List Row :=
  g.2.map (fun pr => ⟨g.1, pr.2, pr.1⟩)

/-- A dataframe made of qid groups in the given order. -/
def dfOfGroups (gs : List (ℕ × List (ℕ × ℕ))) : List Row :=
  (gs.map rowsOfGroup).flatten

/-- The ranks of the relevant rows of one group, in row order. -/
def relRanksOf (g : ℕ × List (ℕ × ℕ)) : List ℕ :=
  (g.2.filter (fun pr => pr.2 == 1)).map (fun pr => pr.1)

/-- Splits the first block of a block list when it has two or more
elements: the loop in mean_ndcg flushes for the second relevant row of
the first query (its qid is never entered into done_qid by the first
row), so the first query's first relevant row forms a block of its own. -/
def pseudoGroups : List (List ℕ) → List (List ℕ)
  | [] => []
  | r :: rest => if 2 ≤ r.length then r.take 1 :: r.drop 1 :: rest else r :: rest

/-- Divides a list of DCG sums by successive entries of the IDCG list,
starting at position j. -/
noncomputable def divIdcg (IDCG : List ℝ) : List ℝ → ℕ → List ℝ
  | [], _ => []
  | x :: xs, j => (x / IDCG.getD j 0) :: divIdcg IDCG xs (j + 1)

/-- The NDCG values mean_ndcg actually averages, in closed form: split
the first block of relevant-rank blocks, drop the last block (its DCG is
never flushed), and divide the DCG sum of the j-th remaining block by
IDCG[j] - the IDCG of the j-th qid of the qid list, not of the block's
own query. -/
noncomputable def entriesSpec (IDCG : List ℝ) (blocks : List (List ℕ)) : List ℝ :=
  divIdcg IDCG (((pseudoGroups blocks).dropLast).map
    (fun blk => (blk.map dcgTerm).sum)) 0

/-- The relevant rows of a list of (qid, relevant ranks) groups. -/
def relRows (L : List (ℕ × List ℕ)) : List Row :=
  (L.map (fun g => g.2.map (fun rk => (⟨g.1, 1, rk⟩ : Row)))).flatten

theorem foldl_ndcg_same_qid (I : List ℝ) (q : ℕ) (rs : List ℕ) (s : NdcgState)
    (hq : q ∈ s.done_qid) :
    (rs.map (fun rk => (⟨q, 1, rk⟩ : Row))).foldl (ndcgStep I) s =
      { s with d := s.d + (rs.map dcgTerm).sum, counter := s.counter + rs.length } := by
  induction rs generalizing s with
  | nil => simp
  | cons r rs ih =>
      obtain ⟨dq, d0, ix, ct, nd⟩ := s
      simp only [List.map_cons, List.foldl_cons]
      have hstep : ndcgStep I ⟨dq, d0, ix, ct, nd⟩ ⟨q, 1, r⟩ =
          ⟨dq, d0 + dcgTerm r, ix, ct + 1, nd⟩ := by
        unfold ndcgStep
        rw [if_neg]
        intro h
        exact h.1 hq
      rw [hstep, ih ⟨dq, d0 + dcgTerm r, ix, ct + 1, nd⟩ hq]
      simp only [NdcgState.mk.injEq, List.sum_cons, List.length_cons]
      and_intros <;> first | trivial | ring | omega

theorem foldl_ndcg_new_group (I : List ℝ) (q : ℕ) (r : ℕ) (rs : List ℕ)
    (s : NdcgState) (hnin : q ∉ s.done_qid) (hc : 0 < s.counter) :
    ((r :: rs).map (fun rk => (⟨q, 1, rk⟩ : Row))).foldl (ndcgStep I) s =
      ⟨s.done_qid ++ [q], ((r :: rs).map dcgTerm).sum, s.index + 1,
        s.counter + (rs.length + 1), s.NDCG ++ [s.d / I.getD s.index 0]⟩ := by
  simp only [List.map_cons, List.foldl_cons]
  have hstep : ndcgStep I s ⟨q, 1, r⟩ =
      ⟨s.done_qid ++ [q], dcgTerm r, s.index + 1, s.counter + 1,
        s.NDCG ++ [s.d / I.getD s.index 0]⟩ := by
    unfold ndcgStep
    rw [if_pos ⟨hnin, hc⟩]
  rw [hstep, foldl_ndcg_same_qid I q rs _ (by simp)]
  simp only [NdcgState.mk.injEq, List.sum_cons, List.map_cons, List.length_cons]
  and_intros <;> first | trivial | ring | omega

theorem foldl_ndcg_groups (I : List ℝ) (L : List (ℕ × List ℕ)) (s : NdcgState)
    (hne : ∀ g ∈ L, g.2 ≠ [])
    (hnin : ∀ g ∈ L, g.1 ∉ s.done_qid)
    (hdis : L.Pairwise (fun g h => g.1 ≠ h.1))
    (hc : 0 < s.counter) (hL : L ≠ []) :
    (relRows L).foldl (ndcgStep I) s =
      ⟨s.done_qid ++ L.map (fun g => g.1),
        (((L.getLastD (0, [])).2).map dcgTerm).sum,
        s.index + L.length,
        s.counter + (L.map (fun g => g.2.length)).sum,
        s.NDCG ++ divIdcg I
          (s.d :: (L.dropLast).map (fun g => (g.2.map dcgTerm).sum)) s.index⟩ := by
  induction L generalizing s with
  | nil => exact absurd rfl hL
  | cons g L' ih =>
      obtain ⟨q, rks⟩ := g
      cases rks with
      | nil => exact absurd rfl (hne ⟨q, []⟩ (by simp))
      | cons r rs =>
          have hsplit : relRows (⟨q, r :: rs⟩ :: L') =
              ((r :: rs).map (fun rk => (⟨q, 1, rk⟩ : Row))) ++ relRows L' := by
            simp [relRows]
          rw [hsplit, List.foldl_append,
            foldl_ndcg_new_group I q r rs s (hnin ⟨q, r :: rs⟩ (by simp)) hc]
          cases L' with
          | nil =>
              simp [relRows, divIdcg, NdcgState.mk.injEq]
          | cons g2 L'' =>
              have hih := ih
                ⟨s.done_qid ++ [q], ((r :: rs).map dcgTerm).sum, s.index + 1,
                  s.counter + (rs.length + 1), s.NDCG ++ [s.d / I.getD s.index 0]⟩
                (fun g hg => hne g (by simp [hg]))
                (fun g hg => by
                  have h1 : g.1 ∉ s.done_qid := hnin g (by simp [hg])
                  have h2 : q ≠ g.1 := (List.pairwise_cons.mp hdis).1 g hg
                  simp [List.mem_append, h1]
                  exact fun hgq => h2 hgq.symm)
                ((List.pairwise_cons.mp hdis).2)
                (by simp)
                (by simp)
              rw [hih]
              simp only [NdcgState.mk.injEq, List.map_cons, List.sum_cons,
                List.length_cons, List.getLastD_cons, List.dropLast_cons₂,
                List.append_assoc, List.singleton_append, divIdcg]
              and_intros <;> first | trivial | ring | omega

theorem pairwise_of_rel_total {α : Type} (R : α → α → Prop) (l : List α)
    (h : ∀ a b, R a b) : l.Pairwise R := by
  induction l with
  | nil => exact List.Pairwise.nil
  | cons a l ih => exact List.Pairwise.cons (fun b _ => h a b) ih

theorem sortByQid_eq_self (df : List Row)
    (h : df.Pairwise (fun a b => a.qid ≤ b.qid)) : sortByQid df = df := by
  induction df with
  | nil => rfl
  | cons r l ih =>
      have hl : sortByQid l = l := ih (List.pairwise_cons.mp h).2
      show insertRow r (sortByQid l) = r :: l
      rw [hl]
      cases l with
      | nil => rfl
      | cons x xs =>
          show (if r.qid ≤ x.qid then r :: x :: xs else x :: insertRow r xs) = _
          rw [if_pos ((List.pairwise_cons.mp h).1 x (by simp))]

theorem mem_rowsOfGroup_qid (g : ℕ × List (ℕ × ℕ)) (a : Row)
    (ha : a ∈ rowsOfGroup g) : a.qid = g.1 := by
  unfold rowsOfGroup at ha
  obtain ⟨pr, _, rfl⟩ := List.mem_map.mp ha
  rfl

theorem mem_dfOfGroups_qid (gs : List (ℕ × List (ℕ × ℕ))) (a : Row)
    (ha : a ∈ dfOfGroups gs) : ∃ g ∈ gs, a.qid = g.1 := by
  unfold dfOfGroups at ha
  obtain ⟨rows, hrows, harows⟩ := List.mem_flatten.mp ha
  obtain ⟨g, hg, rfl⟩ := List.mem_map.mp hrows
  exact ⟨g, hg, mem_rowsOfGroup_qid g a harows⟩

theorem dfOfGroups_sorted (gs : List (ℕ × List (ℕ × ℕ)))
    (h : gs.Pairwise (fun g h' => g.1 < h'.1)) :
    (dfOfGroups gs).Pairwise (fun a b => a.qid ≤ b.qid) := by
  induction gs with
  | nil => exact List.Pairwise.nil
  | cons g gs ih =>
      have hsplit : dfOfGroups (g :: gs) = rowsOfGroup g ++ dfOfGroups gs := by
        simp [dfOfGroups]
      rw [hsplit]
      refine List.pairwise_append.mpr ⟨?_, ih (List.pairwise_cons.mp h).2, ?_⟩
      · unfold rowsOfGroup
        refine List.pairwise_map.mpr (pairwise_of_rel_total _ _ ?_)
        intro a b
        exact le_refl g.1
      · intro a ha b hb
        obtain ⟨g', hg', hqb⟩ := mem_dfOfGroups_qid gs b hb
        have := (List.pairwise_cons.mp h).1 g' hg'
        rw [mem_rowsOfGroup_qid g a ha, hqb]
        exact le_of_lt this

theorem filter_rowsOfGroup (g : ℕ × List (ℕ × ℕ)) :
    (rowsOfGroup g).filter (fun r => r.relevancy == 1) =
      (relRanksOf g).map (fun rk => (⟨g.1, 1, rk⟩ : Row)) := by
  unfold rowsOfGroup relRanksOf
  rw [List.filter_map, List.map_map]
  apply List.map_congr_left
  intro pr hpr
  have h1 : pr.2 = 1 := by
    have := List.of_mem_filter hpr
    simpa using this
  simp [h1]

theorem filter_dfOfGroups (gs : List (ℕ × List (ℕ × ℕ))) :
    (dfOfGroups gs).filter (fun r => r.relevancy == 1) =
      relRows (gs.map (fun g => (g.1, relRanksOf g))) := by
  induction gs with
  | nil => rfl
  | cons g gs ih =>
      have hsplit : dfOfGroups (g :: gs) = rowsOfGroup g ++ dfOfGroups gs := by
        simp [dfOfGroups]
      rw [hsplit, List.filter_append, filter_rowsOfGroup, ih]
      simp [relRows]

theorem relRows_filter_empty (L : List (ℕ × List ℕ)) :
    relRows (L.filter (fun pr => !pr.2.isEmpty)) = relRows L := by
  induction L with
  | nil => rfl
  | cons g L ih =>
      cases hg : g.2 with
      | nil =>
          have hrows : g.2.map (fun rk => (⟨g.1, 1, rk⟩ : Row)) = [] := by
            rw [hg]; rfl
          simp [relRows, List.filter_cons, hg, hrows]
          simpa [relRows] using ih
      | cons x xs =>
          simp only [relRows, List.filter_cons, hg]
          simp only [List.isEmpty_cons, Bool.not_false, if_pos]
          simp only [List.map_cons, List.flatten_cons]
          have := ih
          simp only [relRows] at this
          rw [this]

theorem ndcg_entries_core (I : List ℝ) (RL : List (ℕ × List ℕ))
    (hne : ∀ g ∈ RL, g.2 ≠ [])
    (hdis : RL.Pairwise (fun g h => g.1 ≠ h.1)) :
    ((relRows RL).foldl (ndcgStep I) ⟨[], 0, 0, 0, []⟩).NDCG =
      divIdcg I (((pseudoGroups (RL.map (fun g => g.2))).dropLast).map
        (fun blk => (blk.map dcgTerm).sum)) 0 := by
  cases RL with
  | nil => simp [relRows, pseudoGroups, divIdcg]
  | cons g RL' =>
      obtain ⟨q1, r1⟩ := g
      cases r1 with
      | nil => exact absurd rfl (hne ⟨q1, []⟩ (by simp))
      | cons x xs =>
          have hs1 : ndcgStep I ⟨[], 0, 0, 0, []⟩ ⟨q1, 1, x⟩ =
              ⟨[], dcgTerm x, 0, 1, []⟩ := by
            unfold ndcgStep
            rw [if_neg (fun h => absurd h.2 (lt_irrefl 0))]
            simp
          cases xs with
          | nil =>
              have hsplit : relRows (⟨q1, [x]⟩ :: RL') =
                  (⟨q1, 1, x⟩ : Row) :: relRows RL' := by
                simp [relRows]
              rw [hsplit, List.foldl_cons, hs1]
              cases RL' with
              | nil => simp [relRows, pseudoGroups, divIdcg]
              | cons g2 RL'' =>
                  rw [foldl_ndcg_groups I (g2 :: RL'') ⟨[], dcgTerm x, 0, 1, []⟩
                    (fun g hg => hne g (by simp [hg]))
                    (fun g _ => List.not_mem_nil g.1)
                    ((List.pairwise_cons.mp hdis).2)
                    (by simp) (by simp)]
                  have hps : pseudoGroups ((⟨q1, [x]⟩ :: g2 :: RL'').map
                      (fun g => g.2)) = [x] :: (g2 :: RL'').map (fun g => g.2) := by
                    simp [pseudoGroups]
                  rw [hps]
                  have hdl : ([x] :: (g2 :: RL'').map (fun g => g.2)).dropLast =
                      [x] :: ((g2 :: RL'').map (fun g => g.2)).dropLast := rfl
                  rw [hdl]
                  simp only [List.map_cons, divIdcg, List.nil_append, List.map_dropLast,
                    List.map_map, List.sum_cons, List.sum_nil, List.map_nil, add_zero]
                  rfl
          | cons y rest =>
              have hsplit : relRows (⟨q1, x :: y :: rest⟩ :: RL') =
                  (⟨q1, 1, x⟩ : Row) :: (⟨q1, 1, y⟩ : Row) ::
                    (rest.map (fun rk => (⟨q1, 1, rk⟩ : Row)) ++ relRows RL') := by
                simp [relRows]
              rw [hsplit, List.foldl_cons, hs1, List.foldl_cons]
              have hs2 : ndcgStep I ⟨[], dcgTerm x, 0, 1, []⟩ ⟨q1, 1, y⟩ =
                  ⟨[q1], dcgTerm y, 1, 2, [dcgTerm x / I.getD 0 0]⟩ := by
                unfold ndcgStep
                rw [if_pos ⟨List.not_mem_nil q1, one_pos⟩]
                rfl
              rw [hs2, List.foldl_append,
                foldl_ndcg_same_qid I q1 rest _ (by simp)]
              cases RL' with
              | nil =>
                  have hps : pseudoGroups ([((q1, x :: y :: rest) : ℕ × List ℕ)].map
                      (fun g => g.2)) = [[x], y :: rest] := by
                    simp [pseudoGroups]
                  simp only [relRows, List.map_nil, List.flatten_nil, List.foldl_nil,
                    hps]
                  simp [divIdcg]
              | cons g2 RL'' =>
                  rw [foldl_ndcg_groups I (g2 :: RL'')
                    ⟨[q1], dcgTerm y + (rest.map dcgTerm).sum, 1,
                      2 + rest.length, [dcgTerm x / I.getD 0 0]⟩
                    (fun g hg => hne g (by simp [hg]))
                    (fun g hg => by
                      have h2 : q1 ≠ g.1 := (List.pairwise_cons.mp hdis).1 g hg
                      simp
                      exact fun hgq => h2 hgq.symm)
                    ((List.pairwise_cons.mp hdis).2)
                    (by simp) (by simp)]
                  have hps : pseudoGroups ((⟨q1, x :: y :: rest⟩ :: g2 :: RL'').map
                      (fun g => g.2)) =
                      [x] :: (y :: rest) :: (g2 :: RL'').map (fun g => g.2) := by
                    simp [pseudoGroups]
                  rw [hps]
                  have hdl : ([x] :: (y :: rest) :: (g2 :: RL'').map
                      (fun g => g.2)).dropLast =
                      [x] :: (y :: rest) :: ((g2 :: RL'').map (fun g => g.2)).dropLast := rfl
                  rw [hdl]
                  simp only [List.map_cons, divIdcg, List.map_dropLast, List.map_map,
                    List.sum_cons, List.sum_nil, List.map_nil, add_zero,
                    List.singleton_append, List.cons_append, List.nil_append]
                  rfl

/-- C5 amended: the closed form of mean_ndcg on a dataframe given as qid
groups in strictly increasing qid order.  The queries with no relevant
rows contribute nothing, the final accumulated DCG (the last
relevant-row block) is never flushed, the first block is split after its
first relevant row, and the j-th flushed value is divided by the IDCG of
the j-th position of the qid list rather than of its own query. -/
theorem claimC5_amended_closed_form (gs : List (ℕ × List (ℕ × ℕ)))
    (retrieved : List ℕ)
    (hsorted : gs.Pairwise (fun g h => g.1 < h.1)) :
    mean_ndcg (dfOfGroups gs) retrieved =
      npMean (entriesSpec (retrieved.map idcgAt)
        ((gs.map relRanksOf).filter (fun blk => !blk.isEmpty))) := by
  have h0 : (gs.map (fun g => (g.1, relRanksOf g))).Pairwise
      (fun a c => a.1 ≠ c.1) := by
    refine List.pairwise_map.mpr (hsorted.imp ?_)
    intro a c hac
    exact ne_of_lt hac
  have hne : ∀ g ∈ (gs.map (fun g => (g.1, relRanksOf g))).filter
      (fun pr => !pr.2.isEmpty), g.2 ≠ [] := by
    intro g hg
    have := List.of_mem_filter hg
    simpa using this
  have hdis : ((gs.map (fun g => (g.1, relRanksOf g))).filter
      (fun pr => !pr.2.isEmpty)).Pairwise (fun a c => a.1 ≠ c.1) :=
    h0.sublist (List.filter_sublist _)
  unfold mean_ndcg
  rw [sortByQid_eq_self _ (dfOfGroups_sorted gs hsorted), filter_dfOfGroups,
    ← relRows_filter_empty (gs.map (fun g => (g.1, relRanksOf g))),
    ndcg_entries_core (retrieved.map idcgAt) _ hne hdis]
  unfold entriesSpec
  have hblocks : ((gs.map (fun g => (g.1, relRanksOf g))).filter
      (fun pr => !pr.2.isEmpty)).map (fun g => g.2) =
      (gs.map relRanksOf).filter (fun blk => !blk.isEmpty) := by
    rw [List.filter_map, List.map_map, List.filter_map]
    rfl
  rw [hblocks]

/-- Witness input for the amended C5 theorem: query 1 with one relevant
row at rank 1, query 2 with an irrelevant row at rank 3 and a relevant
row at rank 1. -/
def gsC5w : List (ℕ × List (ℕ × ℕ)) := [(1, [(1, 1)]), (2, [(3, 0), (1, 1)])]

/-- Witness for the amended C5 theorem at gsC5w. -/
theorem claimC5_amended_witness :
    gsC5w.Pairwise (fun g h => g.1 < h.1) ∧
    mean_ndcg (dfOfGroups gsC5w) [1, 2] =
      npMean (entriesSpec ([1, 2].map idcgAt)
        ((gsC5w.map relRanksOf).filter (fun blk => !blk.isEmpty))) :=
  ⟨by decide, claimC5_amended_closed_form gsC5w [1, 2] (by decide)⟩

/-!  The ranking step:
validation_data_sample.groupby("qid")["bm25"].rank(ascending=False,
method="first").astype(int).  Within each qid group, the rank of a row
is one plus the number of rows of the same group that precede it in the
descending stable order: rows with a strictly larger score, or an equal
score and a smaller row position.  The score type is any linear order
(the source's scores are floats). -/

/-- A row of the dataframe as seen by the ranking step: qid and bm25. -/
structure ScoredRow (α : Type) where
  qid : ℕ
  bm25 : α

instance {α : Type} [Inhabited α] : Inhabited (ScoredRow α) := ⟨⟨0, default⟩⟩

/-- The qid of the row at position p. -/
def qidAt {α : Type} [Inhabited α] (df : List (ScoredRow α)) (p : ℕ) : ℕ :=
  (df.getD p default).qid

/-- The bm25 score of the row at position p. -/
def scoreAt {α : Type} [Inhabited α] (df : List (ScoredRow α)) (p : ℕ) : α :=
  (df.getD p default).bm25

/-- Position a precedes position b in the descending stable order:
strictly larger score, or equal score and an earlier position. -/
def beats {α : Type} [LinearOrder α] (s : ℕ → α) (a b : ℕ) : Prop :=
  s b < s a ∨ (s a = s b ∧ a < b)

instance beatsDecidable {α : Type} [LinearOrder α] (s : ℕ → α) (a b : ℕ) :
    Decidable (beats s a b) :=
  inferInstanceAs (Decidable (s b < s a ∨ (s a = s b ∧ a < b)))

/-- The rank column assigned by groupby("qid").rank(ascending=False,
method="first"): position p gets one plus the number of positions of
the same qid group that beat it. -/
def rankStep {α : Type} [LinearOrder α] [Inhabited α]
    (df : List (ScoredRow α)) : List ℕ :=
  (List.range df.length).map (fun p =>
    1 + ((Finset.range df.length).filter
      (fun p' => qidAt df p' = qidAt df p ∧ beats (scoreAt df) p' p)).card)

/-- The row positions of one qid group, in row order. -/
def groupPositions {α : Type} [LinearOrder α] [Inhabited α]
    (df : List (ScoredRow α)) (q : ℕ) : List ℕ :=
  (List.range df.length).filter (fun p => decide (qidAt df p = q))

theorem beats_trans {α : Type} [LinearOrder α] (s : ℕ → α) {a c e : ℕ}
    (h1 : beats s a c) (h2 : beats s c e) : beats s a e := by
  rcases h1 with h1 | ⟨h1e, h1l⟩ <;> rcases h2 with h2 | ⟨h2e, h2l⟩
  · exact Or.inl (lt_trans h2 h1)
  · exact Or.inl (h2e ▸ h1)
  · exact Or.inl (h1e ▸ h2)
  · exact Or.inr ⟨h1e.trans h2e, lt_trans h1l h2l⟩

theorem beats_irrefl {α : Type} [LinearOrder α] (s : ℕ → α) (a : ℕ) :
    ¬ beats s a a := by
  rintro (h | ⟨_, h⟩)
  · exact lt_irrefl _ h
  · exact lt_irrefl _ h

theorem beats_total {α : Type} [LinearOrder α] (s : ℕ → α) {a c : ℕ}
    (h : a ≠ c) : beats s a c ∨ beats s c a := by
  rcases lt_trichotomy (s a) (s c) with hs | hs | hs
  · exact Or.inr (Or.inl hs)
  · rcases Nat.lt_or_ge a c with hac | hac
    · exact Or.inl (Or.inr ⟨hs, hac⟩)
    · exact Or.inr (Or.inr ⟨hs.symm, lt_of_le_of_ne hac (Ne.symm h)⟩)
  · exact Or.inl (Or.inl hs)

/-- The rank of position p inside the position set P of its group. -/
def rankIn {α : Type} [LinearOrder α] (P : Finset ℕ) (s : ℕ → α) (p : ℕ) : ℕ :=
  1 + (P.filter (fun p' => beats s p' p)).card

theorem rankIn_lt {α : Type} [LinearOrder α] (P : Finset ℕ) (s : ℕ → α)
    {p p2 : ℕ} (hp : p ∈ P) (h : beats s p p2) :
    rankIn P s p < rankIn P s p2 := by
  have hsub : P.filter (fun x => beats s x p) ⊆ P.filter (fun x => beats s x p2) := by
    intro x hx
    rcases Finset.mem_filter.mp hx with ⟨hxP, hxb⟩
    exact Finset.mem_filter.mpr ⟨hxP, beats_trans s hxb h⟩
  have hmem : p ∈ P.filter (fun x => beats s x p2) := Finset.mem_filter.mpr ⟨hp, h⟩
  have hnot : p ∉ P.filter (fun x => beats s x p) := by
    intro hx
    exact beats_irrefl s p (Finset.mem_filter.mp hx).2
  have hcard : (P.filter (fun x => beats s x p)).card <
      (P.filter (fun x => beats s x p2)).card :=
    Finset.card_lt_card ((Finset.ssubset_iff_of_subset hsub).mpr ⟨p, hmem, hnot⟩)
  unfold rankIn
  omega

theorem rankIn_injOn {α : Type} [LinearOrder α] (P : Finset ℕ) (s : ℕ → α)
    {a c : ℕ} (ha : a ∈ P) (hc : c ∈ P) (h : rankIn P s a = rankIn P s c) :
    a = c := by
  by_contra hne
  rcases beats_total s hne with hb | hb
  · exact absurd h (ne_of_lt (rankIn_lt P s ha hb))
  · exact absurd h.symm (ne_of_lt (rankIn_lt P s hc hb))

theorem rankIn_le_card {α : Type} [LinearOrder α] (P : Finset ℕ) (s : ℕ → α)
    {p : ℕ} (hp : p ∈ P) : rankIn P s p ≤ P.card := by
  have hsub : P.filter (fun x => beats s x p) ⊆ P.erase p := by
    intro x hx
    rcases Finset.mem_filter.mp hx with ⟨hxP, hxb⟩
    refine Finset.mem_erase.mpr ⟨?_, hxP⟩
    rintro rfl
    exact beats_irrefl s x hxb
  have h1 := Finset.card_le_card hsub
  have h2 := Finset.card_erase_of_mem hp
  have h3 : 0 < P.card := Finset.card_pos.mpr ⟨p, hp⟩
  unfold rankIn
  omega

theorem rankIn_image {α : Type} [LinearOrder α] (P : Finset ℕ) (s : ℕ → α) :
    P.image (rankIn P s) = Finset.Icc 1 P.card := by
  apply Finset.eq_of_subset_of_card_le
  · intro r hr
    obtain ⟨p, hp, rfl⟩ := Finset.mem_image.mp hr
    refine Finset.mem_Icc.mpr ⟨?_, rankIn_le_card P s hp⟩
    unfold rankIn
    omega
  · rw [Nat.card_Icc, Finset.card_image_of_injOn
      (fun a ha c hc h => rankIn_injOn P s ha hc h)]
    omega

/-- C3.  For every query q, the ranks assigned by the ranking step to
the N rows of q's group are exactly a permutation of 1..N, a row of
rank 1 carries a maximal bm25 score of the group, and ties between equal
scores go to the earlier row, so the earlier of two tied rows always has
the strictly smaller rank. -/
theorem claimC3_ranks_form_permutation (α : Type) [LinearOrder α] [Inhabited α]
    (df : List (ScoredRow α)) (q : ℕ) :
    ((groupPositions df q).map (fun p => (rankStep df).getD p 0)).Perm
      (List.range' 1 (groupPositions df q).length) ∧
    (∀ p ∈ groupPositions df q, (rankStep df).getD p 0 = 1 →
      ∀ p2 ∈ groupPositions df q, scoreAt df p2 ≤ scoreAt df p) ∧
    (∀ p ∈ groupPositions df q, ∀ p2 ∈ groupPositions df q, p < p2 →
      scoreAt df p = scoreAt df p2 →
      (rankStep df).getD p 0 < (rankStep df).getD p2 0) := by
  classical
  set N := df.length with hN
  set s := scoreAt df with hs
  set P : Finset ℕ := (Finset.range N).filter (fun p => qidAt df p = q) with hP
  have hmem : ∀ p, p ∈ groupPositions df q ↔ (p < N ∧ qidAt df p = q) := by
    intro p
    simp [groupPositions, hN]
  have hPmem : ∀ p, p ∈ P ↔ (p < N ∧ qidAt df p = q) := by
    intro p
    simp [hP, Finset.mem_filter, Finset.mem_range]
  have hnodup : (groupPositions df q).Nodup :=
    (List.nodup_range N).filter _
  have hpsfin : (groupPositions df q).toFinset = P := by
    ext x
    rw [List.mem_toFinset, hmem, hPmem]
  have hlen : (groupPositions df q).length = P.card := by
    rw [← hpsfin, List.toFinset_card_of_nodup hnodup]
  have hrank : ∀ p, p < N → qidAt df p = q →
      (rankStep df).getD p 0 = rankIn P s p := by
    intro p hpN hpq
    unfold rankStep
    rw [List.getD_eq_getElem?_getD, List.getElem?_map]
    have hr : (List.range N)[p]? = some p := by
      simp [List.getElem?_range, hpN]
    rw [hr]
    simp only [Option.map_some', Option.getD_some]
    unfold rankIn
    congr 1
    rw [hP, Finset.filter_filter, ← hN]
    refine congrArg Finset.card ?_
    apply Finset.filter_congr
    intro x _
    rw [hpq, hs]
  refine ⟨?_, ?_, ?_⟩
  · apply List.perm_of_nodup_nodup_toFinset_eq
    · refine List.Nodup.map_on ?_ hnodup
      intro x hx y hy hxy
      obtain ⟨hxN, hxq⟩ := (hmem x).mp hx
      obtain ⟨hyN, hyq⟩ := (hmem y).mp hy
      rw [hrank x hxN hxq, hrank y hyN hyq] at hxy
      exact rankIn_injOn P s ((hPmem x).mpr ⟨hxN, hxq⟩)
        ((hPmem y).mpr ⟨hyN, hyq⟩) hxy
    · exact List.nodup_range' 1 _
    · have htf1 : ((groupPositions df q).map
          (fun p => (rankStep df).getD p 0)).toFinset =
          (groupPositions df q).toFinset.image (fun p => (rankStep df).getD p 0) := by
        ext x
        simp
      rw [htf1, hpsfin]
      have himg : P.image (fun p => (rankStep df).getD p 0) = P.image (rankIn P s) := by
        apply Finset.image_congr
        intro p hp
        obtain ⟨hpN, hpq⟩ := (hPmem p).mp hp
        exact hrank p hpN hpq
      rw [himg, rankIn_image]
      ext x
      simp only [List.mem_toFinset, List.mem_range'_1, Finset.mem_Icc, hlen]
      omega
  · intro p hp h1 p2 hp2
    obtain ⟨hpN, hpq⟩ := (hmem p).mp hp
    obtain ⟨hp2N, hp2q⟩ := (hmem p2).mp hp2
    rw [hrank p hpN hpq] at h1
    unfold rankIn at h1
    have hcard : (P.filter (fun p' => beats s p' p)).card = 0 := by omega
    have hempty := Finset.card_eq_zero.mp hcard
    have hnotb : ¬ beats s p2 p := by
      intro hb
      have : p2 ∈ P.filter (fun p' => beats s p' p) :=
        Finset.mem_filter.mpr ⟨(hPmem p2).mpr ⟨hp2N, hp2q⟩, hb⟩
      rw [hempty] at this
      exact absurd this (Finset.not_mem_empty p2)
    rw [beats] at hnotb
    push_neg at hnotb
    exact hnotb.1
  · intro p hp p2 hp2 hlt heq
    obtain ⟨hpN, hpq⟩ := (hmem p).mp hp
    obtain ⟨hp2N, hp2q⟩ := (hmem p2).mp hp2
    rw [hrank p hpN hpq, hrank p2 hp2N hp2q]
    exact rankIn_lt P s ((hPmem p).mpr ⟨hpN, hpq⟩) (Or.inr ⟨heq, hlt⟩)

/-- Witness dataframe for the ranking claim: qid 1 rows at positions
0, 1, 3 with scores 3, 1, 3 and a qid 2 row at position 2. -/
def dfC3w : List (ScoredRow ℚ) := [⟨1, 3⟩, ⟨1, 1⟩, ⟨2, 5⟩, ⟨1, 3⟩]

/-- Witness for the ranking claim at dfC3w and q = 1: the group ranks
are a permutation of 1..3, and the tie between positions 0 and 3
(both score 3) goes to position 0. -/
theorem claimC3_witness :
    ((groupPositions dfC3w 1).map (fun p => (rankStep dfC3w).getD p 0)).Perm
      (List.range' 1 (groupPositions dfC3w 1).length) ∧
    (0 ∈ groupPositions dfC3w 1 ∧ 3 ∈ groupPositions dfC3w 1 ∧
      scoreAt dfC3w 0 = scoreAt dfC3w 3 ∧
      (rankStep dfC3w).getD 0 0 < (rankStep dfC3w).getD 3 0) :=
  ⟨(claimC3_ranks_form_permutation ℚ dfC3w 1).1,
   by decide, by decide, by decide,
   (claimC3_ranks_form_permutation ℚ dfC3w 1).2.2 0 (by decide) 3 (by decide)
     (by decide) (by decide)⟩

/-!  bm25_feature and the BM25 scorer.  bm25_feature (source lines
125-135) groups the dataframe by qid, builds a corpus from the group's
clean passages, instantiates BM25Okapi on that corpus alone, scores the
group's query against it and concatenates the per-group score arrays.
The BM25Okapi scorer itself comes from the third-party rank_bm25
package, whose code is not part of this repository, so the scorer is
modelled from the spec below; bm25_feature itself is translated from
the source. -/

/-- A row of the dataframe as seen by bm25_feature: qid, clean queries
and clean passages (tokens are numbered). -/
structure BmRow where
  qid : ℕ
  cleanQuery : List ℕ
  cleanPassage : List ℕ
deriving DecidableEq, Inhabited, Repr

/-- Modelled from the spec: the BM25 parameter k1 = 1.5. -/
noncomputable def k1 : ℝ := 3 / 2

/-- Modelled from the spec: the BM25 parameter b = 0.75. -/
noncomputable def b : ℝ := 3 / 4

/-- Term frequency tf(t,d): occurrences of token t in document d. -/
def tf (t : ℕ) (d : List ℕ) : ℕ := d.count t

/-- Document frequency df(t): corpus documents containing token t. -/
def docFreq (t : ℕ) (corpus : List (List ℕ)) : ℕ :=
  (corpus.filter (fun d' => decide (t ∈ d'))).length

/-- Modelled from the spec: avgdl, the mean token count over the
query's own candidate set, guarded to 0 on an empty corpus. -/
noncomputable def avgdl (corpus : List (List ℕ)) : ℝ :=
  if corpus.isEmpty then 0
  else ((corpus.map List.length).sum : ℝ) / (corpus.length : ℝ)

/-- Modelled from the spec: idf(t) = ln((N - df(t) + 0.5)/(df(t) + 0.5)
+ 1) with N the size of this query's candidate set. -/
noncomputable def idf (corpus : List (List ℕ)) (t : ℕ) : ℝ :=
  Real.log ((((corpus.length : ℝ) - (docFreq t corpus : ℝ) + 1 / 2) /
    ((docFreq t corpus : ℝ) + 1 / 2)) + 1)

/-- Modelled from the spec: the length-normalisation ratio |d|/avgdl,
guarded to 0 when every document is empty (avgdl = 0), per the spec's
requirement that the degenerate case must not divide by zero. -/
noncomputable def dlNorm (corpus : List (List ℕ)) (d : List ℕ) : ℝ :=
  if (corpus.map List.length).sum = 0 then 0
  else (d.length : ℝ) / avgdl corpus

/-- Modelled from the spec: one addend of the per-document score,
idf(t) * (tf * (k1 + 1)) / (tf + k1 * (1 - b + b * |d|/avgdl)). -/
noncomputable def bm25TermScore (idfv tfv dln : ℝ) : ℝ :=
  idfv * (tfv * (k1 + 1)) / (tfv + k1 * (1 - b + b * dln))

/-- Modelled from the spec: the BM25 score of document d for the given
query, summed over the query's tokens (one addend per occurrence, as in
the scorer's loop over the query). -/
noncomputable def scoreDoc (corpus : List (List ℕ)) (query : List ℕ)
    (d : List ℕ) : ℝ :=
  (query.map (fun t => bm25TermScore (idf corpus t) (tf t d : ℝ)
    (dlNorm corpus d))).sum

/-- Modelled from the spec: score(query, corpus) returns one score per
corpus entry, in corpus order. -/
noncomputable def get_scores (corpus : List (List ℕ)) (query : List ℕ) :
    List ℝ :=
  corpus.map (scoreDoc corpus query)

/-- The loop of bm25_feature: for each qid, the candidate rows are
docs = clean_df[clean_df["qid"]==qid]; the query is docs["clean
queries"][0], which raises KeyError when the group is empty (modelled
by none); the corpus is the group's clean passages; the group's scores
are appended to the running array. -/
noncomputable def bm25Loop (clean_df : List BmRow) : List ℕ → Option (List ℝ)
  | [] => some []
  | q :: qs =>
      match clean_df.filter (fun r => r.qid == q) with
      | [] => none
      | d0 :: drest =>
          match bm25Loop clean_df qs with
          | none => none
          | some rest =>
              some (get_scores ((d0 :: drest).map (fun r => r.cleanPassage))
                d0.cleanQuery ++ rest)

/-- bm25_feature(clean_df, qids) from the source. -/
noncomputable def bm25_feature (clean_df : List BmRow) (qids : List ℕ) :
    Option (List ℝ) :=
  bm25Loop clean_df qids

/-- C4.  When every requested qid has candidate rows, bm25_feature
returns the per-query blocks concatenated in qid-list order; inside the
block of qid q, the score of each row is the explicit Okapi BM25 sum
with k1 = 3/2 and b = 3/4, where N, df(t) and avgdl come from q's own
candidate set only. -/
theorem claimC4_bm25_formula_per_query (clean_df : List BmRow)
    (qids : List ℕ)
    (h : ∀ q ∈ qids, clean_df.filter (fun r => r.qid == q) ≠ []) :
    bm25_feature clean_df qids = some ((qids.map (fun q =>
      (clean_df.filter (fun r => r.qid == q)).map (fun row =>
        (((clean_df.filter (fun r => r.qid == q)).headI.cleanQuery).map
          (fun t =>
            Real.log (((((clean_df.filter (fun r => r.qid == q)).map
                  (fun r => r.cleanPassage)).length : ℝ) -
                (docFreq t ((clean_df.filter (fun r => r.qid == q)).map
                  (fun r => r.cleanPassage)) : ℝ) + 1 / 2) /
                ((docFreq t ((clean_df.filter (fun r => r.qid == q)).map
                  (fun r => r.cleanPassage)) : ℝ) + 1 / 2) + 1) *
            ((tf t row.cleanPassage : ℝ) * (3 / 2 + 1)) /
            ((tf t row.cleanPassage : ℝ) + 3 / 2 * (1 - 3 / 4 + 3 / 4 *
              dlNorm ((clean_df.filter (fun r => r.qid == q)).map
                (fun r => r.cleanPassage)) row.cleanPassage)))).sum))).flatten) := by
  induction qids with
  | nil => rfl
  | cons q qs ih =>
      obtain ⟨d0, drest, hdocs⟩ :=
        List.exists_cons_of_ne_nil (h q (List.mem_cons_self q qs))
      have hrec := ih (fun p hp => h p (List.mem_cons_of_mem q hp))
      unfold bm25_feature at hrec ⊢
      unfold bm25Loop
      simp only [List.map_cons, List.flatten_cons, hdocs, hrec,
        Option.some.injEq]
      congr 1
      simp [get_scores, scoreDoc, bm25TermScore, idf, k1, b, List.map_map,
        List.headI]

/-- Witness dataframe for the BM25 formula claim: one query (qid 1)
with a single candidate row whose query and passage are both the single
token 0. -/
def dfC4w : List BmRow := [⟨1, [0], [0]⟩]

/-- Witness for the BM25 formula claim at dfC4w. -/
theorem claimC4_witness :
    (∀ q ∈ [1], dfC4w.filter (fun r => r.qid == q) ≠ []) ∧
    bm25_feature dfC4w [1] = some ((([1] : List ℕ).map (fun q =>
      (dfC4w.filter (fun r => r.qid == q)).map (fun row =>
        (((dfC4w.filter (fun r => r.qid == q)).headI.cleanQuery).map
          (fun t =>
            Real.log (((((dfC4w.filter (fun r => r.qid == q)).map
                  (fun r => r.cleanPassage)).length : ℝ) -
                (docFreq t ((dfC4w.filter (fun r => r.qid == q)).map
                  (fun r => r.cleanPassage)) : ℝ) + 1 / 2) /
                ((docFreq t ((dfC4w.filter (fun r => r.qid == q)).map
                  (fun r => r.cleanPassage)) : ℝ) + 1 / 2) + 1) *
            ((tf t row.cleanPassage : ℝ) * (3 / 2 + 1)) /
            ((tf t row.cleanPassage : ℝ) + 3 / 2 * (1 - 3 / 4 + 3 / 4 *
              dlNorm ((dfC4w.filter (fun r => r.qid == q)).map
                (fun r => r.cleanPassage)) row.cleanPassage)))).sum))).flatten) :=
  ⟨by decide, claimC4_bm25_formula_per_query dfC4w [1] (by decide)⟩

/-- C9 counterexample input: the dataframe has only qid 1 rows. -/
def dfC9 : List BmRow := [⟨1, [2], [2]⟩]

/-- C9.  For the degenerate input of a zero-length document set (a qid
with no candidate rows), the scoring step does not return zero/neutral
scores: docs["clean queries"][0] on the empty group raises a KeyError
(modelled by none). -/
theorem claimC9_empty_candidate_set_raises :
    bm25_feature dfC9 [3] = none := by
  simp [bm25_feature, bm25Loop, dfC9]

/-- C9 amended, in three parts.  (1) A qid with an empty candidate set
makes bm25_feature raise (none) instead of returning neutral scores.
(2) For any corpus and document, every per-term denominator of the
spec-modelled scorer is strictly positive - single-document corpora and
corpora of empty documents included - so no division by zero occurs.
(3) A document sharing no token with the query scores exactly 0. -/
theorem claimC9_amended_degenerate_guards :
    (∀ (clean_df : List BmRow) (qids : List ℕ) (q : ℕ), q ∈ qids →
      clean_df.filter (fun r => r.qid == q) = [] →
      bm25_feature clean_df qids = none) ∧
    (∀ (corpus : List (List ℕ)) (d : List ℕ) (t : ℕ),
      0 < (tf t d : ℝ) + k1 * (1 - b + b * dlNorm corpus d)) ∧
    (∀ (corpus : List (List ℕ)) (query : List ℕ) (d : List ℕ),
      (∀ t ∈ query, tf t d = 0) → scoreDoc corpus query d = 0) := by
  refine ⟨?_, ?_, ?_⟩
  · intro clean_df qids q hq he
    induction qids with
    | nil => cases hq
    | cons p ps ih =>
        rcases List.mem_cons.mp hq with h | h
        · subst h
          simp [bm25_feature, bm25Loop, he]
        · have hrec := ih h
          unfold bm25_feature at hrec ⊢
          unfold bm25Loop
          cases hfil : clean_df.filter (fun r => r.qid == p) with
          | nil => rfl
          | cons d0 drest => simp [hrec]
  · intro corpus d t
    have hdln : 0 ≤ dlNorm corpus d := by
      unfold dlNorm
      split_ifs with hsum
      · exact le_refl 0
      · have havg : 0 ≤ avgdl corpus := by
          unfold avgdl
          split_ifs with hemp
          · exact le_refl 0
          · exact div_nonneg (Nat.cast_nonneg _) (Nat.cast_nonneg _)
        exact div_nonneg (Nat.cast_nonneg _) havg
    have htf : (0:ℝ) ≤ (tf t d : ℝ) := Nat.cast_nonneg _
    unfold k1 b
    nlinarith
  · intro corpus query d h
    unfold scoreDoc
    apply List.sum_eq_zero
    intro x hx
    obtain ⟨t, ht, rfl⟩ := List.mem_map.mp hx
    rw [h t ht]
    unfold bm25TermScore
    norm_num

/-- Witness dataframe for the amended C9 theorem. -/
def dfC9w : List BmRow := [⟨1, [0], [0]⟩]

/-- Witness for the amended C9 theorem: an empty qid-2 group makes the
call raise; a single-document corpus of one empty document has a
positive denominator; a no-overlap document scores 0. -/
theorem claimC9_amended_witness :
    bm25_feature dfC9w [2] = none ∧
    0 < (tf 0 ([] : List ℕ) : ℝ) + k1 * (1 - b + b * dlNorm [([] : List ℕ)] []) ∧
    scoreDoc [[1]] [0] [1] = 0 :=
  ⟨claimC9_amended_degenerate_guards.1 dfC9w [2] 2 (by decide) (by decide),
   claimC9_amended_degenerate_guards.2.1 [([] : List ℕ)] [] 0,
   claimC9_amended_degenerate_guards.2.2 [[1]] [0] [1] (by decide)⟩

/-- C7 counterexample, before: four documents of length 2, each
containing query token 0; the scored document also contains token 1. -/
def corpusC7a : List (List ℕ) := [[0, 1], [0, 0], [0, 0], [0, 0]]

/-- The scored document before raising tf(0): one 0 and one 1. -/
def dC7a : List ℕ := [0, 1]

/-- C7 counterexample, after: the scored document now holds nine 0s
(still one 1, all other documents unchanged). -/
def corpusC7b : List (List ℕ) :=
  [[0, 1, 0, 0, 0, 0, 0, 0, 0, 0], [0, 0], [0, 0], [0, 0]]

/-- The scored document after raising tf(0) from 1 to 9. -/
def dC7b : List ℕ := [0, 1, 0, 0, 0, 0, 0, 0, 0, 0]

theorem scoreDoc_C7a_value :
    scoreDoc corpusC7a [0, 1] dC7a =
      Real.log (10 / 9) * 1 + Real.log (10 / 3) * 1 := by
  have h1 : docFreq 0 [[0, 1], [0, 0], [0, 0], [0, 0]] = 4 := by decide
  have h2 : docFreq 1 [[0, 1], [0, 0], [0, 0], [0, 0]] = 1 := by decide
  have h3 : tf 0 [0, 1] = 1 := by decide
  have h4 : tf 1 [0, 1] = 1 := by decide
  simp only [scoreDoc, List.map_cons, List.map_nil, List.sum_cons, List.sum_nil,
    bm25TermScore, idf, k1, b, dlNorm, avgdl, corpusC7a, dC7a, h1, h2, h3, h4]
  norm_num

theorem scoreDoc_C7b_value :
    scoreDoc corpusC7b [0, 1] dC7b =
      Real.log (10 / 9) * (24 / 13) + Real.log (10 / 3) * (40 / 67) := by
  have h1 : docFreq 0 [[0, 1, 0, 0, 0, 0, 0, 0, 0, 0], [0, 0], [0, 0], [0, 0]] = 4 := by
    decide
  have h2 : docFreq 1 [[0, 1, 0, 0, 0, 0, 0, 0, 0, 0], [0, 0], [0, 0], [0, 0]] = 1 := by
    decide
  have h3 : tf 0 [0, 1, 0, 0, 0, 0, 0, 0, 0, 0] = 9 := by decide
  have h4 : tf 1 [0, 1, 0, 0, 0, 0, 0, 0, 0, 0] = 1 := by decide
  simp only [scoreDoc, List.map_cons, List.map_nil, List.sum_cons, List.sum_nil,
    bm25TermScore, idf, k1, b, dlNorm, avgdl, corpusC7b, dC7b, h1, h2, h3, h4]
  norm_num
  ring_nf

/-- C7.  Raising the term frequency of query token 0 in the scored
document from 1 to 9; holding the frequency of the other query token 1
fixed; strictly lowers the document's BM25 score: the longer document
inflates the length normalisation and token 1's contribution shrinks by
more than low-idf token 0 gains (token 0 appears in every document). -/
theorem claimC7_score_not_monotone_in_tf :
    tf 0 dC7b = 9 ∧ tf 0 dC7a = 1 ∧ tf 1 dC7b = tf 1 dC7a ∧
    scoreDoc corpusC7b [0, 1] dC7b < scoreDoc corpusC7a [0, 1] dC7a := by
  refine ⟨by decide, by decide, by decide, ?_⟩
  rw [scoreDoc_C7a_value, scoreDoc_C7b_value]
  have h1 : Real.log (10 / 9) ≤ 1 / 9 := by
    have := Real.log_le_sub_one_of_pos (show (0:ℝ) < 10 / 9 by norm_num)
    linarith
  have h2 : (0.6931471803 : ℝ) < Real.log 2 := Real.log_two_gt_d9
  have h3 : Real.log 2 ≤ Real.log (10 / 3) :=
    Real.log_le_log (by norm_num) (by norm_num)
  have h4 : (0:ℝ) ≤ Real.log (10 / 9) := Real.log_nonneg (by norm_num)
  nlinarith

/-- C7 amended: the per-term BM25 contribution used by scoreDoc is
monotonically non-decreasing in the tf argument when the idf value and
the length normalisation are held fixed (the claim as stated fails
because actually adding occurrences of the term lengthens the document
and changes avgdl, which can shrink the other terms by more). -/
theorem claimC7_amended_term_monotone (idfv dln t1 t2 : ℝ)
    (hidf : 0 ≤ idfv) (hdln : 0 ≤ dln) (h1 : 0 ≤ t1) (h12 : t1 ≤ t2) :
    bm25TermScore idfv t1 dln ≤ bm25TermScore idfv t2 dln := by
  unfold bm25TermScore k1 b
  have hd1 : (0:ℝ) < t1 + 3 / 2 * (1 - 3 / 4 + 3 / 4 * dln) := by nlinarith
  have hd2 : (0:ℝ) < t2 + 3 / 2 * (1 - 3 / 4 + 3 / 4 * dln) := by nlinarith
  rw [div_le_div_iff₀ hd1 hd2]
  nlinarith [mul_nonneg (mul_nonneg hidf hdln) (sub_nonneg.mpr h12),
    mul_nonneg hidf (sub_nonneg.mpr h12)]

/-- Witness for the amended C7 theorem: with idf 1 and length
normalisation 0, raising tf from 1 to 2 does not lower the term score. -/
theorem claimC7_amended_witness :
    (0:ℝ) ≤ 1 ∧ (1:ℝ) ≤ 2 ∧ bm25TermScore 1 1 0 ≤ bm25TermScore 1 2 0 :=
  ⟨by norm_num, by norm_num,
    claimC7_amended_term_monotone 1 0 1 2 (by norm_num) (by norm_num)
      (by norm_num) (by norm_num)⟩

/-!  C10: the bm25 column assignment
validation_data_sample["bm25"] = bm25_feature(...) pastes the returned
array positionally, while the array is ordered by qid blocks (in
qid-list order), not by the dataframe's own row order. -/

/-- The rows of the dataframe regrouped into qid blocks, in qid-list
order: the row order that bm25_feature's output actually follows. -/
def regrouped (clean_df : List BmRow) (qids : List ℕ) : List BmRow :=
  (qids.map (fun q => clean_df.filter (fun r => r.qid == q))).flatten

/-- A dataframe contiguously grouped by qid: for each group, its qid
and its rows' (clean query, clean passage) pairs. -/
def bmOfGroups (gs : List (ℕ × List (List ℕ × List ℕ))) : List BmRow :=
  (gs.map (fun g => g.2.map (fun pr => (⟨g.1, pr.1, pr.2⟩ : BmRow)))).flatten

theorem bm25_feature_blocks (clean_df : List BmRow) (qids : List ℕ)
    (h : ∀ q ∈ qids, clean_df.filter (fun r => r.qid == q) ≠ []) :
    bm25_feature clean_df qids = some ((qids.map (fun q =>
      get_scores ((clean_df.filter (fun r => r.qid == q)).map
        (fun r => r.cleanPassage))
        ((clean_df.filter (fun r => r.qid == q)).headI.cleanQuery))).flatten) := by
  induction qids with
  | nil => rfl
  | cons q qs ih =>
      obtain ⟨d0, drest, hdocs⟩ :=
        List.exists_cons_of_ne_nil (h q (List.mem_cons_self q qs))
      have hrec := ih (fun p hp => h p (List.mem_cons_of_mem q hp))
      unfold bm25_feature at hrec ⊢
      unfold bm25Loop
      simp only [List.map_cons, List.flatten_cons, hdocs, hrec,
        Option.some.injEq, List.headI]

theorem mem_bmOfGroups_qid (gs : List (ℕ × List (List ℕ × List ℕ)))
    (a : BmRow) (ha : a ∈ bmOfGroups gs) : ∃ g ∈ gs, a.qid = g.1 := by
  unfold bmOfGroups at ha
  obtain ⟨rows, hrows, harows⟩ := List.mem_flatten.mp ha
  obtain ⟨g, hg, rfl⟩ := List.mem_map.mp hrows
  obtain ⟨pr, _, rfl⟩ := List.mem_map.mp harows
  exact ⟨g, hg, rfl⟩

theorem filter_bmOfGroups (gs : List (ℕ × List (List ℕ × List ℕ)))
    (hdis : gs.Pairwise (fun g h => g.1 ≠ h.1)) :
    ∀ g ∈ gs, (bmOfGroups gs).filter (fun r => r.qid == g.1) =
      g.2.map (fun pr => (⟨g.1, pr.1, pr.2⟩ : BmRow)) := by
  induction gs with
  | nil => exact fun g hg => absurd hg (List.not_mem_nil g)
  | cons g0 gs ih =>
      intro g hg
      have hsplit : bmOfGroups (g0 :: gs) =
          g0.2.map (fun pr => (⟨g0.1, pr.1, pr.2⟩ : BmRow)) ++ bmOfGroups gs := by
        simp [bmOfGroups]
      rw [hsplit, List.filter_append]
      rcases List.mem_cons.mp hg with rfl | hg2
      · have h1 : (g.2.map (fun pr => (⟨g.1, pr.1, pr.2⟩ : BmRow))).filter
            (fun r => r.qid == g.1) =
            g.2.map (fun pr => (⟨g.1, pr.1, pr.2⟩ : BmRow)) := by
          apply List.filter_eq_self.mpr
          intro a ha
          obtain ⟨pr, _, rfl⟩ := List.mem_map.mp ha
          simp
        have h2 : (bmOfGroups gs).filter (fun r => r.qid == g.1) = [] := by
          rw [List.filter_eq_nil_iff]
          intro a ha
          obtain ⟨g', hg', hq'⟩ := mem_bmOfGroups_qid gs a ha
          have : g.1 ≠ g'.1 := (List.pairwise_cons.mp hdis).1 g' hg'
          simp [hq']
          exact fun hc => this hc.symm
        rw [h1, h2, List.append_nil]
      · have h1 : (g0.2.map (fun pr => (⟨g0.1, pr.1, pr.2⟩ : BmRow))).filter
            (fun r => r.qid == g.1) = [] := by
          rw [List.filter_eq_nil_iff]
          intro a ha
          obtain ⟨pr, _, rfl⟩ := List.mem_map.mp ha
          have : g0.1 ≠ g.1 := (List.pairwise_cons.mp hdis).1 g hg2
          simp [this]
        rw [h1, ih (List.pairwise_cons.mp hdis).2 g hg2, List.nil_append]

theorem bm25_feature_aligned_when_grouped (gs : List (ℕ × List (List ℕ × List ℕ)))
    (hdis : gs.Pairwise (fun g h => g.1 ≠ h.1))
    (hne : ∀ g ∈ gs, g.2 ≠ []) :
    bm25_feature (bmOfGroups gs) (gs.map (fun g => g.1)) =
      some ((bmOfGroups gs).map (fun row =>
        scoreDoc (((bmOfGroups gs).filter (fun r => r.qid == row.qid)).map
            (fun r => r.cleanPassage))
          (((bmOfGroups gs).filter (fun r => r.qid == row.qid)).headI.cleanQuery)
          row.cleanPassage)) := by
  have hcov : ∀ q ∈ gs.map (fun g => g.1),
      (bmOfGroups gs).filter (fun r => r.qid == q) ≠ [] := by
    intro q hq
    obtain ⟨g, hg, rfl⟩ := List.mem_map.mp hq
    rw [filter_bmOfGroups gs hdis g hg]
    intro hc
    exact hne g hg (List.map_eq_nil_iff.mp hc)
  rw [bm25_feature_blocks (bmOfGroups gs) (gs.map (fun g => g.1)) hcov]
  congr 1
  unfold bmOfGroups
  rw [List.map_map, List.map_flatten, List.map_map]
  congr 1
  apply List.map_congr_left
  intro g hg
  have hfil := filter_bmOfGroups gs hdis g hg
  unfold bmOfGroups at hfil
  simp only [Function.comp, get_scores, hfil, List.map_map]
  apply List.map_congr_left
  intro pr _
  simp only [Function.comp,
    show ∀ x y z, (BmRow.mk x y z).qid = x from fun _ _ _ => rfl,
    show ∀ x y z, (BmRow.mk x y z).cleanPassage = z from fun _ _ _ => rfl]
  rw [hfil]
  simp only [List.map_map, Function.comp,
    show ∀ x y z, (BmRow.mk x y z).cleanPassage = z from fun _ _ _ => rfl]

theorem regrouped_perm (clean_df : List BmRow) (qids : List ℕ)
    (hnodup : qids.Nodup) (hcover : ∀ r ∈ clean_df, r.qid ∈ qids) :
    (regrouped clean_df qids).Perm clean_df := by
  induction qids generalizing clean_df with
  | nil =>
      cases clean_df with
      | nil => exact List.Perm.refl _
      | cons r l => exact absurd (hcover r (by simp)) (List.not_mem_nil r.qid)
  | cons q qs ih =>
      have hsplit : regrouped clean_df (q :: qs) =
          clean_df.filter (fun r => r.qid == q) ++ regrouped clean_df qs := by
        simp [regrouped]
      have hstep : regrouped clean_df qs =
          regrouped (clean_df.filter (fun r => !(r.qid == q))) qs := by
        unfold regrouped
        congr 1
        apply List.map_congr_left
        intro q' hq'
        rw [List.filter_filter]
        apply List.filter_congr
        intro r _
        cases hb : r.qid == q' with
        | false => simp [hb]
        | true =>
            have hrq : r.qid = q' := by simpa using hb
            have hqq : q' ≠ q := by
              intro hc
              exact (List.nodup_cons.mp hnodup).1 (hc ▸ hq')
            simp [hb, hrq, hqq]
      have hperm2 : (regrouped (clean_df.filter (fun r => !(r.qid == q))) qs).Perm
          (clean_df.filter (fun r => !(r.qid == q))) := by
        apply ih
        · exact (List.nodup_cons.mp hnodup).2
        intro r hr
        have hr1 := List.mem_filter.mp hr
        have hr2 := hcover r hr1.1
        rcases List.mem_cons.mp hr2 with hc | hc
        · exfalso
          have := hr1.2
          simp [hc] at this
        · exact hc
      rw [hsplit, hstep]
      exact (List.Perm.append_left _ hperm2).trans
        (List.filter_append_perm (fun r => r.qid == q) clean_df)

theorem exists_getD_ne (xs ys : List ℕ) (hlen : xs.length = ys.length)
    (hne : xs ≠ ys) : ∃ i, i < xs.length ∧ xs.getD i 0 ≠ ys.getD i 0 := by
  induction xs generalizing ys with
  | nil =>
      cases ys with
      | nil => exact absurd rfl hne
      | cons y ys => simp at hlen
  | cons x xs ih =>
      cases ys with
      | nil => simp at hlen
      | cons y ys =>
          by_cases hxy : x = y
          · subst hxy
            have hne2 : xs ≠ ys := fun h => hne (by rw [h])
            obtain ⟨i, hi, hd⟩ := ih ys (by simpa using hlen) hne2
            exact ⟨i + 1, by simpa using hi, by simpa using hd⟩
          · exact ⟨0, by simp, by simpa using hxy⟩

/-- C10 counterexample input: qids 1 and 2 interleaved; rows 0 and 2
belong to query 1, row 1 to query 2.  Row 1's passage shares no token
with its query, so its own score is 0. -/
def dfC10 : List BmRow := [⟨1, [0], [0]⟩, ⟨2, [5], [7]⟩, ⟨1, [0], [0]⟩]

theorem bm25_feature_dfC10_value :
    bm25_feature dfC10 [1, 2] =
      some [Real.log (6 / 5), Real.log (6 / 5), 0] := by
  have h1 : dfC10.filter (fun r => r.qid == 1) =
      [⟨1, [0], [0]⟩, ⟨1, [0], [0]⟩] := by decide
  have h2 : dfC10.filter (fun r => r.qid == 2) = [⟨2, [5], [7]⟩] := by decide
  have hdf : docFreq 0 [[0], [0]] = 2 := by decide
  have htf : tf 0 [0] = 1 := by decide
  have htf2 : tf 5 [7] = 0 := by decide
  have e0 : bm25Loop dfC10 [] = some [] := rfl
  have e2 : bm25Loop dfC10 [2] = some (get_scores [[7]] [5] ++ []) := by
    unfold bm25Loop
    simp only [h2, e0, List.map_cons, List.map_nil]
  have e1 : bm25Loop dfC10 [1, 2] =
      some (get_scores [[0], [0]] [0] ++ (get_scores [[7]] [5] ++ [])) := by
    unfold bm25Loop
    simp only [h1, e2, List.map_cons, List.map_nil]
  unfold bm25_feature
  rw [e1]
  simp only [get_scores, scoreDoc, bm25TermScore, idf, k1, b, dlNorm, avgdl,
    List.map_cons, List.map_nil, List.sum_cons, List.sum_nil, hdf, htf, htf2]
  norm_num

theorem scoreDoc_dfC10_own_row1 :
    scoreDoc ((dfC10.filter (fun r => r.qid == 2)).map (fun r => r.cleanPassage))
      ((dfC10.filter (fun r => r.qid == 2)).headI.cleanQuery) [7] = 0 := by
  have h2 : dfC10.filter (fun r => r.qid == 2) = [⟨2, [5], [7]⟩] := by decide
  have htf2 : tf 5 [7] = 0 := by decide
  rw [h2]
  simp only [scoreDoc, bm25TermScore, List.map_cons, List.map_nil,
    List.sum_cons, List.sum_nil, htf2, List.headI]
  norm_num

/-- C10.  (1) bm25_feature returns the per-query blocks concatenated in
qid-list order, each block in the dataframe's row order for that qid.
(2) When the dataframe is contiguously grouped by qid in the qid-list
order, position i of the returned array is exactly the score of the row
at position i (its own query's corpus and its own passage).  (3) The
array is the scores of the regrouped rows, which are a permutation of
the dataframe's rows, so on a non-grouped dataframe the positional
column assignment pairs some row with another row's score: (4) whenever
the qid sequences of the dataframe and of its regrouping differ, they
differ at some position i; (5) concretely, for the interleaved dfC10 the
returned array is [log(6/5), log(6/5), 0], so position 1 receives
log(6/5) - the score computed for row 2's pair - although row 1's own
pair scores 0. -/
theorem claimC10_bm25_column_misaligned_unless_grouped :
    (∀ (clean_df : List BmRow) (qids : List ℕ),
      (∀ q ∈ qids, clean_df.filter (fun r => r.qid == q) ≠ []) →
      bm25_feature clean_df qids = some ((qids.map (fun q =>
        get_scores ((clean_df.filter (fun r => r.qid == q)).map
          (fun r => r.cleanPassage))
          ((clean_df.filter (fun r => r.qid == q)).headI.cleanQuery))).flatten)) ∧
    (∀ gs : List (ℕ × List (List ℕ × List ℕ)),
      gs.Pairwise (fun g h => g.1 ≠ h.1) → (∀ g ∈ gs, g.2 ≠ []) →
      bm25_feature (bmOfGroups gs) (gs.map (fun g => g.1)) =
        some ((bmOfGroups gs).map (fun row =>
          scoreDoc (((bmOfGroups gs).filter (fun r => r.qid == row.qid)).map
              (fun r => r.cleanPassage))
            (((bmOfGroups gs).filter (fun r => r.qid == row.qid)).headI.cleanQuery)
            row.cleanPassage))) ∧
    (∀ (clean_df : List BmRow) (qids : List ℕ), qids.Nodup →
      (∀ r ∈ clean_df, r.qid ∈ qids) →
      (regrouped clean_df qids).Perm clean_df) ∧
    (∀ (xs ys : List ℕ), xs.length = ys.length → xs ≠ ys →
      ∃ i, i < xs.length ∧ xs.getD i 0 ≠ ys.getD i 0) ∧
    (bm25_feature dfC10 [1, 2] = some [Real.log (6 / 5), Real.log (6 / 5), 0] ∧
      dfC10.map (fun r => r.qid) = [1, 2, 1] ∧
      (regrouped dfC10 [1, 2]).map (fun r => r.qid) = [1, 1, 2] ∧
      scoreDoc ((dfC10.filter (fun r => r.qid == 2)).map (fun r => r.cleanPassage))
        ((dfC10.filter (fun r => r.qid == 2)).headI.cleanQuery) [7] = 0 ∧
      Real.log (6 / 5) ≠ 0) := by
  refine ⟨bm25_feature_blocks, bm25_feature_aligned_when_grouped,
    regrouped_perm, exists_getD_ne,
    bm25_feature_dfC10_value, by decide, by decide, scoreDoc_dfC10_own_row1, ?_⟩
  exact ne_of_gt (Real.log_pos (by norm_num))

/-- Witness dataframe for the C10 theorem. -/
def dfC10w : List BmRow := [⟨5, [1], [1]⟩]

/-- Witness for the C10 theorem: the block structure and the regrouping
permutation instantiated at the one-query dataframe dfC10w. -/
theorem claimC10_witness :
    (∀ q ∈ [5], dfC10w.filter (fun r => r.qid == q) ≠ []) ∧
    bm25_feature dfC10w [5] = some ((([5] : List ℕ).map (fun q =>
      get_scores ((dfC10w.filter (fun r => r.qid == q)).map
        (fun r => r.cleanPassage))
        ((dfC10w.filter (fun r => r.qid == q)).headI.cleanQuery))).flatten) ∧
    (regrouped dfC10w [5]).Perm dfC10w :=
  ⟨by decide,
   claimC10_bm25_column_misaligned_unless_grouped.1 dfC10w [5] (by decide),
   claimC10_bm25_column_misaligned_unless_grouped.2.2.1 dfC10w [5]
     (by decide) (by decide)⟩

end BM25Eval
